import Mathlib

/-!
Shallow embedding of `src/ollama-scraper.ts` (HelgeSverre/ollama-library-scraper).

HTML documents are modelled as node trees (the tree produced by `cheerio.load`);
the JavaScript regular expressions of the source are embedded as specialised
character-list matchers implementing JS leftmost-match semantics with the
greedy/lazy backtracking order of each concrete pattern.  JS strings are
modelled as `List Char` (all patterns in the source are ASCII, so code points
and UTF-16 units agree on every character the patterns can touch),
`String.prototype.toLowerCase` as the ASCII case fold, and the `\s` class as
the ASCII whitespace characters.
-/

namespace Ollama

/-! ### Character classes of the JS regex dialect (ASCII model) -/

def isDigitCh (c : Char) : Bool := '0' ≤ c && c ≤ '9'

def isWsCh (c : Char) : Bool :=
  c = ' ' || c = '\t' || c = '\n' || c = '\r' || c = '\x0b' || c = '\x0c'

def isWordCh (c : Char) : Bool :=
  ('a' ≤ c && c ≤ 'z') || ('A' ≤ c && c ≤ 'Z') || isDigitCh c || c = '_'

def isLowerHexCh (c : Char) : Bool := ('a' ≤ c && c ≤ 'f') || isDigitCh c

/-- Line terminators, which the JS `.` without the `s` flag never matches. -/
def isLineTermCh (c : Char) : Bool :=
  c = '\n' || c = '\r' || c.toNat = 0x2028 || c.toNat = 0x2029

/-- ASCII case fold, the model of `String.prototype.toLowerCase` and of the
`i` regex flag (every string the source lowercases or matches
case-insensitively is compared against an ASCII pattern). -/
def foldCh (c : Char) : Char :=
  if 65 ≤ c.toNat && c.toNat ≤ 90 then Char.ofNat (c.toNat + 32) else c

def foldCL (l : List Char) : List Char := l.map foldCh

def jsToLower (s : String) : String := ⟨foldCL s.data⟩

/-! ### List-of-characters utilities -/

def startsWithCL : List Char → List Char → Bool
  | [], _ => true
  | _ :: _, [] => false
  | p :: ps, c :: cs => p = c && startsWithCL ps cs

/-- `hay` contains `needle` as a contiguous run (JS `String.prototype.includes`). -/
def containsSub (needle : List Char) : List Char → Bool
  | [] => needle.isEmpty
  | c :: t => startsWithCL needle (c :: t) || containsSub needle t

/-- Case-insensitive `startsWithCL` (both sides folded). -/
def ciStartsWith (needle hay : List Char) : Bool :=
  startsWithCL (foldCL needle) (foldCL hay)

/-- Case-insensitive containment. -/
def ciContains (needle hay : List Char) : Bool :=
  containsSub (foldCL needle) (foldCL hay)

def spanDigits (s : List Char) : List Char × List Char :=
  (s.takeWhile isDigitCh, s.dropWhile isDigitCh)

/-- JS `String.prototype.trim` (ASCII whitespace model). -/
def trimJs (l : List Char) : List Char :=
  ((l.dropWhile isWsCh).reverse.dropWhile isWsCh).reverse

def trimS (s : String) : String := ⟨trimJs s.data⟩

/-- `parseInt` on a digit run. -/
def parseDigits (l : List Char) : Nat :=
  l.foldl (fun acc c => 10 * acc + (c.toNat - '0'.toNat)) 0

/-- Replace the first occurrence of `needle` in `hay` by nothing
(JS `String.prototype.replace` with a string pattern and empty replacement). -/
def removeFirst (needle : List Char) : List Char → List Char
  | [] => []
  | c :: t =>
    if startsWithCL needle (c :: t) then (c :: t).drop needle.length
    else c :: removeFirst needle t

/-- Is the given neighbouring character a word character?  `none` is the
string edge, which counts as a non-word position for `\b`. -/
def notWordOpt : Option Char → Bool
  | none => true
  | some c => !isWordCh c

/-- Leftmost-match driver: try the pattern matcher `f` at every suffix from
the left, feeding it the preceding character (for `\b`); the position at the
very end of the string is also tried. -/
def scanFirst (f : Option Char → List Char → Option α) :
    Option Char → List Char → Option α
  | prev, [] => f prev []
  | prev, c :: rest =>
    match f prev (c :: rest) with
    | some r => some r
    | none => scanFirst f (some c) rest

/-! ### The individual regex matchers of the source -/

/-- One global step of `/\b\d+\.?\d*[bmk]\b/gi` (parameter size tokens):
match attempt at the current position, returning the token and the rest of
the input after it. -/
def sizeTokenAt (prev : Option Char) (s : List Char) :
    Option (List Char × List Char) :=
  if !notWordOpt prev then none
  else
    let (d1, r1) := spanDigits s
    if d1.isEmpty then none
    else
      let (tok, r2) :=
        match r1 with
        | '.' :: r => let (d2, r') := spanDigits r; (d1 ++ '.' :: d2, r')
        | _ => (d1, r1)
      match r2 with
      | c :: rest =>
        if (foldCh c = 'b' || foldCh c = 'm' || foldCh c = 'k')
            && notWordOpt rest.head? then
          some (tok ++ [c], rest)
        else none
      | [] => none

/-- All matches of `/\b\d+\.?\d*[bmk]\b/gi` over the text, scanning with the
`lastIndex` discipline of a global JS regex.  The fuel is the remaining
string length, which a successful match always strictly decreases. -/
def sizeTokensGo : Nat → Option Char → List Char → List (List Char)
  | 0, _, _ => []
  | _ + 1, _, [] => []
  | fuel + 1, prev, c :: rest =>
    match sizeTokenAt prev (c :: rest) with
    | some (tok, after) => tok :: sizeTokensGo fuel (tok.getLastD 'b') after
    | none => sizeTokensGo fuel (some c) rest

def sizeTokens (text : List Char) : List (List Char) :=
  sizeTokensGo (text.length + 1) none text

/-- Match attempt of ``new RegExp(`\b${param}\s*(Pulls|Tags)`, 'i')`` at the
current position (the exclusion guard of the parameter extractor; the source
escapes regex metacharacters in `param`, so the parameter occurs in the
pattern as a literal). -/
def pullsTagsGuardAt (pat : List Char) (prev : Option Char) (s : List Char) :
    Option Unit :=
  if !notWordOpt prev then none
  else if !ciStartsWith pat s then none
  else
    let rest := (s.drop pat.length).dropWhile isWsCh
    if ciStartsWith ['p', 'u', 'l', 'l', 's'] rest
        || ciStartsWith ['t', 'a', 'g', 's'] rest then some () else none

def followedByPullsTags (text pat : List Char) : Bool :=
  (scanFirst (pullsTagsGuardAt pat) none text).isSome

/-- The `paramMatches.forEach` accumulation of the listing extractor:
normalise each token, drop it when the exclusion guard fires or when it was
already collected, otherwise push it. -/
def extractParamsGo (text : List Char) :
    List (List Char) → List (List Char) → List (List Char)
  | [], acc => acc
  | p :: ps, acc =>
    let normalized := foldCL p
    if !followedByPullsTags text p && !acc.contains normalized then
      extractParamsGo text ps (acc ++ [normalized])
    else
      extractParamsGo text ps acc

def extractParameters (text : List Char) : List (List Char) :=
  extractParamsGo text (sizeTokens text) []

/-- Match attempt of `/(\d+\.?\d*[KMB]?)\s*Pulls/i`, returning group 1. -/
def pullsAt (_prev : Option Char) (s : List Char) : Option (List Char) :=
  let (d1, r1) := spanDigits s
  if d1.isEmpty then none
  else
    let (tok1, r2) :=
      match r1 with
      | '.' :: r => let (d2, r') := spanDigits r; (d1 ++ '.' :: d2, r')
      | _ => (d1, r1)
    let tryPulls : List Char → List Char → Option (List Char) := fun tok r =>
      if ciStartsWith ['p', 'u', 'l', 'l', 's'] (r.dropWhile isWsCh) then
        some tok
      else none
    match r2 with
    | c :: rest =>
      if foldCh c = 'k' || foldCh c = 'm' || foldCh c = 'b' then
        match tryPulls (tok1 ++ [c]) rest with
        | some t => some t
        | none => tryPulls tok1 r2
      else tryPulls tok1 r2
    | [] => tryPulls tok1 r2

def pullsOf (text : List Char) : Option (List Char) :=
  scanFirst pullsAt none text

/-- Match attempt of `/(\d+)\s*Tags/i`, returning group 1. -/
def tagsCountAt (_prev : Option Char) (s : List Char) : Option (List Char) :=
  let (d1, r1) := spanDigits s
  if d1.isEmpty then none
  else if ciStartsWith ['t', 'a', 'g', 's'] (r1.dropWhile isWsCh) then some d1
  else none

def tagsCountOf (text : List Char) : Option Nat :=
  (scanFirst tagsCountAt none text).map parseDigits

/-- Lazy `(.+?)` capture (no dotall) followed by `(?:\n|$)`: the maximal run
of non-line-terminator characters, valid only when it is non-empty and is
followed by a literal newline or the end of the string. -/
def lazyLineCapture (rest : List Char) : Option (List Char) :=
  let cap := rest.takeWhile (fun c => !isLineTermCh c)
  if cap.isEmpty then none
  else
    match rest.drop cap.length with
    | [] => some cap
    | c :: _ => if c = '\n' then some cap else none

/-- Backtracking of a greedy `\s+` (from the maximal whitespace run down to
one character) in front of `lazyLineCapture`. -/
def wsBacktrackLine (r0 : List Char) : Nat → Option (List Char)
  | 0 => none
  | w + 1 =>
    match lazyLineCapture (r0.drop (w + 1)) with
    | some cap => some cap
    | none => wsBacktrackLine r0 w

/-- Match attempt of `/Updated\s+(.+?)(?:\n|$)/i`, returning group 1. -/
def updatedAt (_prev : Option Char) (s : List Char) : Option (List Char) :=
  if ciStartsWith ['u', 'p', 'd', 'a', 't', 'e', 'd'] s then
    let r0 := s.drop 7
    let w0 := (r0.takeWhile isWsCh).length
    if w0 = 0 then none else wsBacktrackLine r0 w0
  else none

def updatedOf (text : List Char) : Option (List Char) :=
  scanFirst updatedAt none text

/-- Lazy dotall `(.+?)` capture followed by `(?:\n|$)`: at least one
character (any character, newline included), stopping at the first position
from which a newline or the end of the string follows. -/
def lazyDotallCapture (rest : List Char) : Option (List Char) :=
  match rest with
  | [] => none
  | c :: t => some (c :: t.takeWhile (fun x => x ≠ '\n'))

def wsBacktrackDotall (r0 : List Char) : Nat → Option (List Char)
  | 0 => none
  | w + 1 =>
    match lazyDotallCapture (r0.drop (w + 1)) with
    | some cap => some cap
    | none => wsBacktrackDotall r0 w

/-- Match attempt of ``new RegExp(`${modelName}\s+(.+?)(?:\n|$)`, 's')`` (the
description fallback; case sensitive, dotall), returning group 1.  The
source interpolates the slug into the pattern unescaped; slugs are matched
here as literals, which coincides with the source exactly for slugs free of
regex metacharacters.  For metacharacter slugs the constructed pattern can
match differently or be invalid outright — the host `RegExp` constructor
then throws inside the `each` callback, an error path this total matcher
does not carry; `descPattern`, `jsRegexWellParen` and `C3_code_bug` below
pin that behaviour down for a concrete slug. -/
def descAt (name : List Char) (_prev : Option Char) (s : List Char) :
    Option (List Char) :=
  if startsWithCL name s then
    let r0 := s.drop name.length
    let w0 := (r0.takeWhile isWsCh).length
    if w0 = 0 then none else wsBacktrackDotall r0 w0
  else none

def descFallback (name text : List Char) : Option (List Char) :=
  scanFirst (descAt name) none text

/-- The pattern source the description fallback hands to the `RegExp`
constructor: the slug spliced unescaped in front of `\s+(.+?)(?:\n|$)`. -/
def descPattern (slug : List Char) : List Char :=
  slug ++ "\\s+(.+?)(?:\\n|$)".data

/-- Scan of a regex pattern source tracking backslash escapes, character
classes and unescaped group parentheses: `depth` counts open groups,
`inClass` whether a character class is open. -/
def jsRegexParenScan : List Char → Nat → Bool → Bool
  | [], depth, inClass => depth = 0 && !inClass
  | '\\' :: rest, depth, inClass =>
    match rest with
    | [] => false
    | _ :: rest2 => jsRegexParenScan rest2 depth inClass
  | '[' :: rest, depth, _ => jsRegexParenScan rest depth true
  | ']' :: rest, depth, _ => jsRegexParenScan rest depth false
  | '(' :: rest, depth, inClass =>
    if inClass then jsRegexParenScan rest depth inClass
    else jsRegexParenScan rest (depth + 1) inClass
  | ')' :: rest, depth, inClass =>
    if inClass then jsRegexParenScan rest depth inClass
    else
      match depth with
      | 0 => false
      | d + 1 => jsRegexParenScan rest d inClass
  | _ :: rest, depth, inClass => jsRegexParenScan rest depth inClass

/-- A necessary condition for a string to be a valid ECMAScript regex
pattern source: every escape has a target, every character class is closed,
and unescaped group parentheses balance.  On any pattern violating it the
host `RegExp` constructor throws. -/
def jsRegexWellParen (l : List Char) : Bool := jsRegexParenScan l 0 false

/-- Match attempt of a whole-word case-insensitive test
`/\b<word>\b/i` (capability flags, `vision`, `text`); the words are all
alphabetic, so both boundaries reduce to the neighbour not being a word
character. -/
def wordAt (word : List Char) (prev : Option Char) (s : List Char) :
    Option Unit :=
  if notWordOpt prev && ciStartsWith word s
      && notWordOpt (s.drop word.length).head? then some () else none

def testWordCI (word text : List Char) : Bool :=
  (scanFirst (wordAt word) none text).isSome

/-- Match attempt of `/\b([a-f0-9]{12})\b/` (the digest), returning group 1. -/
def digestAt (prev : Option Char) (s : List Char) : Option (List Char) :=
  if !notWordOpt prev then none
  else
    let cap := s.take 12
    if cap.length = 12 && cap.all isLowerHexCh
        && notWordOpt (s.drop 12).head? then some cap
    else none

def digestOf (text : List Char) : Option (List Char) :=
  scanFirst digestAt none text

/-- Match attempt of `/(\d+\.?\d*\s*[GMT]B)/i`, returning group 1 (the size,
whitespace still inside; the source strips it afterwards). -/
def sizeAt (_prev : Option Char) (s : List Char) : Option (List Char) :=
  let (d1, r1) := spanDigits s
  if d1.isEmpty then none
  else
    let (tok1, r2) :=
      match r1 with
      | '.' :: r => let (d2, r') := spanDigits r; (d1 ++ '.' :: d2, r')
      | _ => (d1, r1)
    let w := r2.takeWhile isWsCh
    match r2.drop w.length with
    | c1 :: c2 :: _ =>
      if (foldCh c1 = 'g' || foldCh c1 = 'm' || foldCh c1 = 't')
          && foldCh c2 = 'b' then
        some (tok1 ++ w ++ [c1, c2])
      else none
    | _ => none

/-- `sizeMatch[1].replace(/\s+/g, '')`. -/
def sizeOf' (text : List Char) : List Char :=
  match scanFirst sizeAt none text with
  | some cap => cap.filter (fun c => !isWsCh c)
  | none => []

/-- Match attempt of `/(\d+K)\s*context\s*window/i`, returning group 1. -/
def contextAt (_prev : Option Char) (s : List Char) : Option (List Char) :=
  let (d1, r1) := spanDigits s
  if d1.isEmpty then none
  else
    match r1 with
    | k :: r2 =>
      if foldCh k = 'k' then
        let r3 := r2.dropWhile isWsCh
        if ciStartsWith ['c', 'o', 'n', 't', 'e', 'x', 't'] r3 then
          let r4 := (r3.drop 7).dropWhile isWsCh
          if ciStartsWith ['w', 'i', 'n', 'd', 'o', 'w'] r4 then
            some (d1 ++ [k])
          else none
        else none
      else none
    | [] => none

def contextWindowOf (text : List Char) : Option (List Char) :=
  scanFirst contextAt none text

/-- `inputType`: `'Vision'` when `/\bvision\b/i` fires, else `'Text'` when
`/\btext\b/i` does. -/
def inputTypeOf (text : List Char) : Option String :=
  if testWordCI ['v', 'i', 's', 'i', 'o', 'n'] text then some "Vision"
  else if testWordCI ['t', 'e', 'x', 't'] text then some "Text"
  else none

/-- The alternation `(?:hour|day|week|month|year)` (tried in source order;
the words share no prefixes, so at most one alternative can start a match). -/
def dateUnits : List (List Char) :=
  [['h', 'o', 'u', 'r'], ['d', 'a', 'y'], ['w', 'e', 'e', 'k'],
   ['m', 'o', 'n', 't', 'h'], ['y', 'e', 'a', 'r']]

/-- Tail of date pattern 1 after the unit word: greedy `s?`, `\s*`, `ago`.
Returns the number of characters the tail consumed. -/
def dp1Tail (r3 : List Char) : Option Nat :=
  let noS : Option Nat :=
    let w2 := (r3.takeWhile isWsCh).length
    if ciStartsWith ['a', 'g', 'o'] (r3.drop w2) then some (w2 + 3) else none
  match r3 with
  | c :: r4 =>
    if foldCh c = 's' then
      let w2 := (r4.takeWhile isWsCh).length
      if ciStartsWith ['a', 'g', 'o'] (r4.drop w2) then some (1 + w2 + 3)
      else noS
    else noS
  | [] => noS

/-- Match attempt of `/(\d+\s*(?:hour|day|week|month|year)s?\s*ago)/i`,
returning group 1 (the consumed slice of the text). -/
def dp1At (_prev : Option Char) (s : List Char) : Option (List Char) :=
  let (d1, r1) := spanDigits s
  if d1.isEmpty then none
  else
    let w1 := (r1.takeWhile isWsCh).length
    let r2 := r1.drop w1
    match dateUnits.find? (fun u => ciStartsWith u r2) with
    | none => none
    | some u =>
      match dp1Tail (r2.drop u.length) with
      | some n => some (s.take (d1.length + w1 + u.length + n))
      | none => none

/-- Match attempt of `/•\s*([^•]+?)\s*$/` (no flags), returning group 1:
succeeds at a bullet only when no later bullet exists; the lazy capture is
the remainder after the greedy whitespace run with its trailing whitespace
stripped, or a single backtracked whitespace character when the remainder
is pure whitespace. -/
def dp2At (_prev : Option Char) (s : List Char) : Option (List Char) :=
  match s with
  | c :: r =>
    if c = '•' then
      if r.contains '•' then none
      else
        let m := r.dropWhile isWsCh
        if m.isEmpty then
          match r.getLast? with
          | some lc => some [lc]
          | none => none
        else some ((m.reverse.dropWhile isWsCh).reverse)
    else none
  | [] => none

/-- Backtracking of `\w+` (longest first) followed by `\s*ago` in date
pattern 3; `k + 1` is the candidate length of the word run.  Returns the
total length of word run, whitespace and `ago`. -/
def dp3WordLoop (r2 : List Char) : Nat → Option Nat
  | 0 => none
  | k + 1 =>
    let r3 := r2.drop (k + 1)
    let w2 := (r3.takeWhile isWsCh).length
    if ciStartsWith ['a', 'g', 'o'] (r3.drop w2) then some (k + 1 + w2 + 3)
    else dp3WordLoop r2 k

/-- Match attempt of `/(\d{1,2}\s*\w+\s*ago)/i`, returning group 1. -/
def dp3At (_prev : Option Char) (s : List Char) : Option (List Char) :=
  let d0 := (spanDigits s).1
  if d0.isEmpty then none
  else
    let tryLen : Nat → Option (List Char) := fun dl =>
      let r1 := s.drop dl
      let w1 := (r1.takeWhile isWsCh).length
      let r2 := r1.drop w1
      let wlen := (r2.takeWhile isWordCh).length
      match dp3WordLoop r2 wlen with
      | some n => some (s.take (dl + w1 + n))
      | none => none
    if d0.length ≥ 2 then
      match tryLen 2 with
      | some cap => some cap
      | none => tryLen 1
    else tryLen 1

/-- `modifiedAt`: the three date patterns tried in order, first match wins,
then trimmed; empty when none fires. -/
def modifiedAtOf (text : List Char) : List Char :=
  match scanFirst dp1At none text with
  | some cap => trimJs cap
  | none =>
    match scanFirst dp2At none text with
    | some cap => trimJs cap
    | none =>
      match scanFirst dp3At none text with
      | some cap => trimJs cap
      | none => []

/-- Match attempt of `/·\s*(.+?)$/` (no flags) at a middle-dot: group 1 is
the remainder after the greedy whitespace run when it is non-empty and free
of line terminators (the lazy capture is forced to the end of the string by
`$`), or a single backtracked trailing whitespace character. -/
def vuAt (_prev : Option Char) (s : List Char) : Option (List Char) :=
  match s with
  | c :: r =>
    if c = '·' then
      let m := r.dropWhile isWsCh
      if m.isEmpty then
        match r.getLast? with
        | some lc => if !isLineTermCh lc then some [lc] else none
        | none => none
      else if m.any isLineTermCh then none
      else some m
    else none
  | [] => none

def variantUpdatedOf (text : List Char) : List Char :=
  match scanFirst vuAt none text with
  | some cap => trimJs cap
  | none => []

/-- The anchored test `/^(\d+\.?\d*[KMB]?)\s*Downloads?$/i` on a whole
element text, returning group 1. -/
def downloadsTest (text : List Char) : Option (List Char) :=
  let (d1, r1) := spanDigits text
  if d1.isEmpty then none
  else
    let (tok1, r2) :=
      match r1 with
      | '.' :: r => let (d2, r') := spanDigits r; (d1 ++ '.' :: d2, r')
      | _ => (d1, r1)
    let tailOk : List Char → Bool := fun r =>
      let r' := (r.dropWhile isWsCh)
      if ciStartsWith ['d', 'o', 'w', 'n', 'l', 'o', 'a', 'd'] r' then
        match r'.drop 8 with
        | [] => true
        | [c] => foldCh c = 's'
        | _ => false
      else false
    match r2 with
    | c :: rest =>
      if foldCh c = 'k' || foldCh c = 'm' || foldCh c = 'b' then
        if tailOk rest then some (tok1 ++ [c])
        else if tailOk r2 then some tok1 else none
      else if tailOk r2 then some tok1 else none
    | [] => if tailOk r2 then some tok1 else none

/-- Match attempt of `/:([^/]+)$/` on an `href`, returning group 1: the
leftmost colon whose whole suffix is non-empty and slash-free. -/
def tagSuffixAt (_prev : Option Char) (s : List Char) : Option (List Char) :=
  match s with
  | ':' :: r => if !r.isEmpty && !r.contains '/' then some r else none
  | _ => none

def tagFromHref (href : List Char) : Option (List Char) :=
  scanFirst tagSuffixAt none href

/-! ### The DOM model (the tree produced by `cheerio.load`) -/

inductive HNode where
  | elem (tag : String) (attrs : List (String × String)) (children : List HNode)
  | text (s : String)

namespace HNode

def isElem : HNode → Bool
  | elem _ _ _ => true
  | text _ => false

def tagOf : HNode → String
  | elem t _ _ => t
  | text _ => ""

def attr (name : String) : HNode → Option String
  | elem _ attrs _ => (attrs.find? (fun p => p.1 = name)).map (·.2)
  | text _ => none

end HNode

mutual

/-- All character data below a node, in document order (cheerio `.text()`). -/
def textChars : HNode → List Char
  | .text s => s.data
  | .elem _ _ ch => textCharsList ch

def textCharsList : List HNode → List Char
  | [] => []
  | n :: rest => textChars n ++ textCharsList rest

end

mutual

/-- Document-order (pre-order) traversal of a node forest. -/
def preorderList : List HNode → List HNode
  | [] => []
  | n :: rest => preorderNode n ++ preorderList rest

def preorderNode : HNode → List HNode
  | .text s => [.text s]
  | .elem t a ch => .elem t a ch :: preorderList ch

end

/-- Descendants of a node, document order (cheerio `.find`). -/
def descendantsOf : HNode → List HNode
  | .elem _ _ ch => preorderList ch
  | .text _ => []

/-- A node together with its following siblings and its ancestor chain
(each ancestor paired with that ancestor's own following siblings): enough
context to evaluate cheerio `.next()`, `.parent()` and `.closest()`. -/
structure Loc where
  node : HNode
  after : List HNode
  ancestors : List (HNode × List HNode)

mutual

def walkList (anc : List (HNode × List HNode)) : List HNode → List Loc
  | [] => []
  | n :: rest => walkNode anc n rest ++ walkList anc rest

def walkNode (anc : List (HNode × List HNode)) : HNode → List HNode → List Loc
  | .text _, _ => []
  | .elem t a ch, rest =>
    ⟨.elem t a ch, rest, anc⟩ :: walkList ((.elem t a ch, rest) :: anc) ch

end

/-- Element locations of a whole document; the ancestor chain is rooted in
the cheerio root node (whose text is the whole document's text). -/
def walkDoc (doc : List HNode) : List Loc :=
  walkList [(.elem "#root" [] doc, [])] doc

/-! ### Record types of the scraper -/

structure ModelListItem where
  name : String
  description : String
  parameters : List String
  pulls : String
  tags : Nat
  lastUpdated : String
  url : String
  capabilities : Option (List String)
deriving Repr, DecidableEq

structure ModelTag where
  name : String
  size : String
  digest : String
  modifiedAt : String
  contextWindow : Option String
  inputType : Option String
  aliases : Option (List String)
deriving Repr, DecidableEq

structure VariantSummary where
  name : String
  size : String
  contextWindow : Option String
  inputType : Option String
  lastUpdated : String
deriving Repr, DecidableEq

structure ModelDetails where
  name : String
  description : String
  downloads : String
  lastUpdated : String
  readmeHtml : Option String
  readmeMarkdown : Option String
  models : List VariantSummary
deriving Repr, DecidableEq

/-- Outcome of the external `fetch` collaborator: an HTTP response (the body
already parsed into a node forest) or a transport failure whose message is
the string form of the thrown value. -/
inductive FetchResult where
  | response (status : Nat) (body : List HNode)
  | networkError (msg : String)

/-- node-fetch `response.ok`. -/
def statusOk (st : Nat) : Bool := 200 ≤ st && st < 300

def baseUrl : String := "https://ollama.com"

/-- The shared accumulation idiom of all three extractors: process the
candidates in order with a per-call `seen` de-duplication set, first
occurrence of a key wins. -/
def dedupCollect (f : α → Option (String × β)) :
    List α → List String → List β
  | [], _ => []
  | a :: rest, seen =>
    match f a with
    | none => dedupCollect f rest seen
    | some (k, b) =>
      if seen.contains k then dedupCollect f rest seen
      else b :: dedupCollect f rest (k :: seen)

/-! ### The listing extractor (`getModelListing`) -/

/-- `$li.find('a[href^="/library/"]').first()`. -/
def findLibLink (li : HNode) : Option HNode :=
  (descendantsOf li).find? (fun n =>
    n.isElem && n.tagOf = "a"
      && ((n.attr "href").map (fun h => startsWithCL "/library/".data h.data)).getD false)

/-- The record construction of the `$('li').each` callback, given the
container, the accepted link's `href` and the slug derived from it. -/
def mkListItem (li : HNode) (href modelName : String) : ModelListItem :=
  let fullText := textChars li
  let description : String :=
    match (descendantsOf li).find? (fun n => n.isElem && n.tagOf = "p") with
    | some p => ⟨trimJs (textChars p)⟩
    | none =>
      match descFallback modelName.data fullText with
      | some cap => ⟨trimJs cap⟩
      | none => ""
  let capabilities : List String :=
    (if testWordCI "tools".data fullText then ["tools"] else []) ++
    (if testWordCI "vision".data fullText then ["vision"] else []) ++
    (if testWordCI "thinking".data fullText then ["thinking"] else []) ++
    (if testWordCI "embedding".data fullText then ["embedding"] else [])
  { name := modelName
    description := description
    parameters := (extractParameters fullText).map (fun l => (⟨l⟩ : String))
    pulls :=
      match pullsOf fullText with
      | some cap => ⟨cap⟩
      | none => "0"
    tags := (tagsCountOf fullText).getD 0
    lastUpdated :=
      match updatedOf fullText with
      | some cap => ⟨trimJs cap⟩
      | none => ""
    url := baseUrl ++ href
    capabilities := if capabilities.isEmpty then none else some capabilities }

/-- The `$('li').each` callback: `none` mirrors an early `return`. -/
def liProcess (li : HNode) : Option (String × ModelListItem) :=
  match findLibLink li with
  | none => none
  | some link =>
    let href := (link.attr "href").getD ""
    if href = "" then none
    else if containsSub "/tags".data href.data || href.data.contains ':' then none
    else
      let modelName : String := ⟨removeFirst "/library/".data href.data⟩
      some (modelName, mkListItem li href modelName)

def listingFromDom (doc : List HNode) : List ModelListItem :=
  dedupCollect liProcess
    ((preorderList doc).filter (fun n => n.isElem && n.tagOf = "li")) []

def getModelListing (f : FetchResult) : Except String (List ModelListItem) :=
  match f with
  | .networkError m => .error ("Failed to fetch model listing: " ++ m)
  | .response st doc =>
    if statusOk st then .ok (listingFromDom doc)
    else .error ("Failed to fetch model listing: Error: HTTP error! status: "
      ++ toString st)

/-! ### The tags extractor (`getModelTags`) -/

def hasUnit (t : List Char) : Bool :=
  containsSub "GB".data t || containsSub "MB".data t || containsSub "TB".data t

/-- cheerio `.next()`: the closest following sibling element. -/
def nextElemSib (after : List HNode) : Option HNode := after.find? HNode.isElem

/-- Stage 1 of the metadata cascade: the immediate next sibling element's
text, kept only when it mentions a size unit. -/
def stage1 (loc : Loc) : List Char :=
  match nextElemSib loc.after with
  | some sib => if hasUnit (textChars sib) then textChars sib else []
  | none => []

/-- Stage 2: walk up at most `maxDepth` parents, taking the first whose text
mentions a size unit and is shorter than 200 characters. -/
def stage2Go : Nat → List HNode → List Char
  | 0, _ => []
  | _, [] => []
  | d + 1, a :: rest =>
    if hasUnit (textChars a) && (textChars a).length < 200 then textChars a
    else stage2Go d rest

def stage2 (loc : Loc) : List Char :=
  stage2Go 3 (loc.ancestors.map Prod.fst)

/-- Stage 3: scan at most the next 3 following sibling elements, taking the
first whose text mentions a size unit and is shorter than 100 characters. -/
def stage3 (loc : Loc) : List Char :=
  match ((loc.after.filter HNode.isElem).take 3).find? (fun sib =>
      hasUnit (textChars sib) && (textChars sib).length < 100) with
  | some sib => textChars sib
  | none => []

/-- The candidate-text selection of `getModelTags` (`let text = ''` plus the
three `if (!text)` blocks). -/
def selectTagText (loc : Loc) : List Char :=
  if !(stage1 loc).isEmpty then stage1 loc
  else if !(stage2 loc).isEmpty then stage2 loc
  else stage3 loc

/-- The per-link record construction of `getModelTags`, given the link's own
label text and the candidate metadata text. -/
def mkTagRecord (tagName : String) (linkText text : List Char) : ModelTag :=
  { name := tagName
    size := ⟨sizeOf' text⟩
    digest := ⟨(digestOf text).getD []⟩
    modifiedAt := ⟨modifiedAtOf text⟩
    contextWindow := (contextWindowOf text).map (fun l => (⟨l⟩ : String))
    inputType := inputTypeOf text
    aliases :=
      if tagName ≠ "latest" && containsSub "latest".data (foldCL linkText) then
        some ["latest"]
      else none }

/-- The selector ``a[href*="/library/${modelName}:"]``, modelled as literal
substring containment on the `href` attribute.  The source interpolates the
caller-supplied model name into the selector unescaped: for a model name
containing CSS-selector metacharacters (for example a double quote) the
source's selector parse throws, an error path this total model does not
carry. -/
def tagLinkLocs (modelName : String) (doc : List HNode) : List Loc :=
  (walkDoc doc).filter (fun loc =>
    loc.node.isElem && loc.node.tagOf = "a"
      && ((loc.node.attr "href").map
            (fun h => containsSub ("/library/" ++ modelName ++ ":").data h.data)).getD false)

def tagProcess (loc : Loc) : Option (String × ModelTag) :=
  let href := (loc.node.attr "href").getD ""
  match tagFromHref href.data with
  | none => none
  | some tc =>
    some (⟨tc⟩, mkTagRecord ⟨tc⟩ (textChars loc.node) (selectTagText loc))

def tagsFromDom (modelName : String) (doc : List HNode) : List ModelTag :=
  dedupCollect tagProcess (tagLinkLocs modelName doc) []

def getModelTags (modelName : String) (f : FetchResult) :
    Except String (List ModelTag) :=
  match f with
  | .networkError m => .error ("Failed to fetch model tags: " ++ m)
  | .response st doc =>
    if statusOk st then .ok (tagsFromDom modelName doc)
    else .error ("Failed to fetch model tags: Error: HTTP error! status: "
      ++ toString st)

/-! ### The details extractor (`getModelDetails`) -/

def escapeText (l : List Char) : List Char :=
  l.foldr (fun c acc =>
    if c = '&' then "&amp;".data ++ acc
    else if c = '<' then "&lt;".data ++ acc
    else if c = '>' then "&gt;".data ++ acc
    else c :: acc) []

mutual

/-- Serialisation of a node back to markup (cheerio `.html()`). -/
def renderNode : HNode → List Char
  | .text s => escapeText s.data
  | .elem t attrs ch =>
    '<' :: t.data
      ++ attrs.foldr (fun p acc =>
          ' ' :: p.1.data ++ '=' :: '"' :: p.2.data ++ '"' :: acc) []
      ++ '>' :: renderList ch ++ '<' :: '/' :: t.data ++ ['>']

def renderList : List HNode → List Char
  | [] => []
  | n :: rest => renderNode n ++ renderList rest

end

/-- Inner markup of an element (cheerio `.html()` on a selected element). -/
def innerHtml : HNode → List Char
  | .elem _ _ ch => renderList ch
  | .text _ => []

def idIs (v : String) (n : HNode) : Bool :=
  ((n.attr "id").map (fun i => i == v)).getD false

/-- `$el.closest('li, div, tr')`. -/
def closestLiDivTr (loc : Loc) : Option HNode :=
  (loc.node :: loc.ancestors.map Prod.fst).find? (fun n =>
    n.tagOf = "li" || n.tagOf = "div" || n.tagOf = "tr")

/-- The selector `a[href*="/library/"][href*=":"]` of the variant scan. -/
def variantLinkLocs (doc : List HNode) : List Loc :=
  (walkDoc doc).filter (fun loc =>
    loc.node.isElem && loc.node.tagOf = "a"
      && ((loc.node.attr "href").map (fun h =>
            containsSub "/library/".data h.data && containsSub [':'] h.data)).getD false)

def mkVariant (tagName : String) (tagText : List Char) : VariantSummary :=
  { name := tagName
    size := ⟨sizeOf' tagText⟩
    contextWindow := (contextWindowOf tagText).map (fun l => (⟨l⟩ : String))
    inputType := inputTypeOf tagText
    lastUpdated := ⟨variantUpdatedOf tagText⟩ }

def variantProcess (loc : Loc) : Option (String × VariantSummary) :=
  let href := (loc.node.attr "href").getD ""
  match tagFromHref href.data with
  | none => none
  | some tc =>
    let tagText : List Char :=
      match closestLiDivTr loc with
      | some e => textChars e
      | none =>
        match loc.ancestors.head? with
        | some p => textChars p.1
        | none => []
    some (⟨tc⟩, mkVariant ⟨tc⟩ tagText)

/-- `$('#display')`, the readme container. -/
def findDisplay (doc : List HNode) : Option HNode :=
  (preorderList doc).find? (fun n => n.isElem && idIs "display" n)

/-- The readme block of `getModelDetails`: html capture, Markdown conversion
with the silent catch.  The conversion collaborator `conv` returns `none`
when `turndown` throws; the third component records whether the catch branch
(the `console.warn`) ran. -/
def extractReadme (doc : List HNode) (conv : String → Option String) :
    Option String × Option String × Bool :=
  match findDisplay doc with
  | none => (none, none, false)
  | some e =>
    let rh := trimJs (innerHtml e)
    if rh.isEmpty then (none, none, false)
    else
      match conv ⟨rh⟩ with
      | some md =>
        let md' := trimJs md.data
        (some ⟨rh⟩, if md'.isEmpty then none else some ⟨md'⟩, false)
      | none => (some ⟨rh⟩, none, true)

def detailsFromDom (modelName : String) (doc : List HNode)
    (conv : String → Option String) : ModelDetails × Bool :=
  let readme := extractReadme doc conv
  let elems := preorderList doc
  ({ name := modelName
     description :=
       ⟨trimJs ((elems.filter (fun n => n.isElem && idIs "summary-content" n)).foldr
          (fun n acc => textChars n ++ acc) [])⟩
     downloads :=
       match (elems.filter (fun n =>
           n.isElem && (n.tagOf = "span" || n.tagOf = "div"))).findSome?
           (fun n => downloadsTest (textChars n)) with
       | some cap => ⟨cap⟩
       | none => "0"
     lastUpdated :=
       match (elems.filter (fun n => n.isElem && n.tagOf = "time")).findSome?
           (fun n =>
             let t := trimJs (textChars n)
             if t.isEmpty then none else some t) with
       | some t => ⟨t⟩
       | none =>
         let mt := (elems.filter (fun n => n.isElem && n.tagOf = "main")).foldr
           (fun n acc => textChars n ++ acc) []
         match updatedOf mt with
         | some cap => ⟨trimJs cap⟩
         | none => ""
     readmeHtml := readme.1
     readmeMarkdown := readme.2.1
     models := dedupCollect variantProcess (variantLinkLocs doc) [] },
   readme.2.2)

/-- URL selection of `getModelDetails`. -/
def detailsUrl (modelName : String) (tag : Option String) : String :=
  match tag with
  | some t => baseUrl ++ "/library/" ++ modelName ++ ":" ++ t
  | none => baseUrl ++ "/library/" ++ modelName

/-- `getModelDetails`: the `tag` argument participates only in `detailsUrl`
(the page the collaborator fetched is the `f` argument); the Boolean records
whether the conversion warning was logged. -/
def getModelDetails (modelName : String) (tag : Option String)
    (f : FetchResult) (conv : String → Option String) :
    Except String (ModelDetails × Bool) :=
  match f with
  | .networkError m => .error ("Failed to fetch model details: " ++ m)
  | .response st doc =>
    if statusOk st then .ok (detailsFromDom modelName doc conv)
    else .error ("Failed to fetch model details: Error: HTTP error! status: "
      ++ toString st)

/-! ### Specification-side definitions

These follow the wording of the specification (not the source) and are only
used to compare against the source-derived definitions above. -/

/-- A catalog-pattern link as the specification describes it: an anchor with
an `href` on the `/library/` prefix whose remainder has no colon and no
`/tags` part. -/
def catalogLink (n : HNode) : Bool :=
  n.isElem && n.tagOf = "a"
    && ((n.attr "href").map (fun h =>
          startsWithCL "/library/".data h.data
            && !containsSub "/tags".data h.data
            && !h.data.contains ':')).getD false

/-- The first contained catalog-pattern link of a container, as the
specification's listing algorithm describes it. -/
def firstCatalogLink (li : HNode) : Option HNode :=
  (descendantsOf li).find? catalogLink

/-- Stage 1 as the specification words it: the immediate next sibling's
text, accepted only if it mentions a size unit. -/
def stage1Spec (loc : Loc) : Option (List Char) :=
  match nextElemSib loc.after with
  | some sib =>
    if hasUnit (textChars sib) then some (textChars sib) else none
  | none => none

/-- Stage 2 as the specification words it: the first of at most 3 ancestor
levels whose text mentions a size unit and is shorter than 200 characters. -/
def stage2Spec (loc : Loc) : Option (List Char) :=
  ((loc.ancestors.map Prod.fst).take 3).findSome? (fun a =>
    if hasUnit (textChars a) && (textChars a).length < 200
    then some (textChars a) else none)

/-- Stage 3 as the specification words it: the first of at most the next 3
forward elements whose text mentions a size unit and is shorter than 100
characters. -/
def stage3Spec (loc : Loc) : Option (List Char) :=
  ((loc.after.filter HNode.isElem).take 3).findSome? (fun sib =>
    if hasUnit (textChars sib) && (textChars sib).length < 100
    then some (textChars sib) else none)

/-- The three-stage metadata cascade as the specification words it: each
stage yields an optional candidate and the first success wins. -/
def cascadeSpec (loc : Loc) : Option (List Char) :=
  stage1Spec loc <|> stage2Spec loc <|> stage3Spec loc

/-! ### Concrete documents used by counterexamples and witnesses -/

/-- The single catalog entry of Scenario A, exactly as the spec writes it
(one line, no newlines). -/
def c1li : HNode :=
  .elem "li" []
    [.elem "a" [("href", "/library/test-model")] [.text "test-model"],
     .text " Test description Parameters: 7b, 13b 100K Pulls 5 Tags Updated 2 hours ago"]

/-- The full text of Scenario A's catalog entry. -/
def c1text : List Char :=
  "test-model Test description Parameters: 7b, 13b 100K Pulls 5 Tags Updated 2 hours ago".data

/-- Scenario A's page as `cheerio.load` wraps it. -/
def c1doc : List HNode :=
  [.elem "html" [] [.elem "head" [] [], .elem "body" [] [c1li]]]

/-- The record `getModelListing` actually produces for Scenario A. -/
def c1record : ModelListItem :=
  { name := "test-model"
    description := "Test description Parameters: 7b, 13b 100K Pulls 5 Tags Updated 2 hours ago"
    parameters := ["7b", "13b"]
    pulls := "100K"
    tags := 5
    lastUpdated := "2 hours ago"
    url := "https://ollama.com/library/test-model"
    capabilities := none }

/-- A container whose first `/library/`-prefixed link is a tag link (colon)
while a later link matches the catalog pattern. -/
def c8li : HNode :=
  .elem "li" []
    [.elem "a" [("href", "/library/m:7b")] [.text "7b"],
     .elem "a" [("href", "/library/m")] [.text "m"],
     .text " stuff"]

def c8doc : List HNode :=
  [.elem "html" [] [.elem "body" [] [c8li]]]

/-- A minimal tags page: one tag link whose next sibling carries the
metadata (Scenario B of the spec). -/
def tagsDoc : List HNode :=
  [.elem "html" [] [.elem "body" []
    [.elem "div" []
      [.elem "a" [("href", "/library/test-model:latest")] [.text "latest"],
       .elem "span" [] [.text "4.1GB abc123def456 2 hours ago"]]]]]

/-- A tags page whose non-latest tag's own label mentions `latest`. -/
def aliasDoc : List HNode :=
  [.elem "html" [] [.elem "body" []
    [.elem "div" []
      [.elem "a" [("href", "/library/m:7b")] [.text "7b (latest)"],
       .elem "span" [] [.text "4.1GB abc123def456 2 hours ago"]]]]]

/-- The tag record the tags extractor produces for `tagsDoc`. -/
def c4rec : ModelTag :=
  { name := "latest", size := "4.1GB", digest := "abc123def456",
    modifiedAt := "2 hours ago", contextWindow := none, inputType := none,
    aliases := none }

/-- The tag record the tags extractor produces for `aliasDoc`. -/
def c9rec : ModelTag :=
  { name := "7b", size := "4.1GB", digest := "abc123def456",
    modifiedAt := "2 hours ago", contextWindow := none, inputType := none,
    aliases := some ["latest"] }

/-- A successfully fetched catalog page whose only entry's link slug is
`"("`: it passes every guard of the listing callback and has no `<p>`
element, so the source reaches the unescaped `RegExp` construction with an
invalid pattern and throws despite the 200 status. -/
def c3li : HNode :=
  .elem "li" [] [.elem "a" [("href", "/library/(")] [.text "("]]

def c3doc : List HNode :=
  [.elem "html" [] [.elem "body" [] [c3li]]]

/-- A details page with a readme container. -/
def detailsDoc : List HNode :=
  [.elem "html" [] [.elem "body" []
    [.elem "div" [("id", "display")] [.elem "h1" [] [.text "Readme"]]]]]

/-! ### Leftmost-match driver lemma -/

theorem scanFirst_some {f : Option Char → List Char → Option α}
    {p : Option Char} {s : List Char} {r : α}
    (h : scanFirst f p s = some r) : ∃ p' s', f p' s' = some r := by
  induction s generalizing p with
  | nil => exact ⟨p, [], h⟩
  | cons c rest ih =>
    rw [scanFirst] at h
    cases hf : f p (c :: rest) with
    | some r' => rw [hf] at h; exact ⟨p, c :: rest, hf.trans h⟩
    | none => rw [hf] at h; exact ih h

/-! ### Claim C1 -/

/-- C1, counterexample: on the Scenario A input, `getModelListing` returns
exactly one record whose `name`, `parameters`, `pulls`, `tags` and
`lastUpdated` are as claimed, but whose `description` is not
`"Test description"`: with the whole entry on one line, the description
fallback regex `` `${name}\s+(.+?)(?:\n|$)` `` finds no newline and the lazy
capture is forced to the end of the string. -/
theorem C1_counterexample :
    getModelListing (.response 200 c1doc) = .ok [c1record]
      ∧ c1record.description ≠ "Test description" := by
  exact ⟨rfl, by decide⟩

/-- C1, amended: for the Scenario A input, `getModelListing` returns exactly
one record with name `"test-model"`, parameters `["7b", "13b"]`, pulls
`"100K"`, tags `5`, last-updated `"2 hours ago"`, and description equal to
the entire text following the slug,
`"Test description Parameters: 7b, 13b 100K Pulls 5 Tags Updated 2 hours ago"`. -/
theorem C1_amended :
    getModelListing (.response 200 c1doc) = .ok [c1record] := rfl

/-! ### Claim C8 -/

/-- C8, counterexample: `c8li` contains a catalog-pattern link (slug `"m"`,
never seen before), yet the listing extractor rejects the container and
returns no record, because the *first* `/library/`-prefixed link of the
container (`/library/m:7b`) carries a colon: the extractor does not search
for the first catalog-pattern link as the claim states. -/
theorem C8_counterexample :
    firstCatalogLink c8li
        = some (.elem "a" [("href", "/library/m")] [.text "m"])
      ∧ liProcess c8li = none
      ∧ getModelListing (.response 200 c8doc) = .ok [] := by
  exact ⟨rfl, rfl, rfl⟩

/-- C8, amended: for every candidate container, the extractor locates the
first contained link whose `href` merely starts with `/library/`; the
container is rejected exactly when no such link exists or when that first
link's `href` is empty, mentions `/tags` anywhere, or contains a colon
(otherwise it yields the record for that link's slug); a record whose slug
was already seen is dropped by the per-call de-duplication fold. -/
theorem C8_amended (li : HNode) :
    (liProcess li = none ↔
      findLibLink li = none
        ∨ ∃ link, findLibLink li = some link
            ∧ ((link.attr "href").getD "" = ""
                ∨ containsSub "/tags".data ((link.attr "href").getD "").data = true
                ∨ ':' ∈ ((link.attr "href").getD "").data))
    ∧ (∀ link, findLibLink li = some link →
        (link.attr "href").getD "" ≠ "" →
        containsSub "/tags".data ((link.attr "href").getD "").data = false →
        ':' ∉ ((link.attr "href").getD "").data →
        liProcess li
          = some (⟨removeFirst "/library/".data ((link.attr "href").getD "").data⟩,
              mkListItem li ((link.attr "href").getD "")
                ⟨removeFirst "/library/".data ((link.attr "href").getD "").data⟩))
    ∧ (∀ (cands : List HNode) (seen : List String) (k : String) (b : ModelListItem),
        liProcess li = some (k, b) →
          (k ∈ seen →
            dedupCollect liProcess (li :: cands) seen
              = dedupCollect liProcess cands seen)
          ∧ (k ∉ seen →
            dedupCollect liProcess (li :: cands) seen
              = b :: dedupCollect liProcess cands (k :: seen))) := by
  refine ⟨?_, ?_, ?_⟩
  · cases hl : findLibLink li with
    | none => simp [liProcess, hl]
    | some link =>
      simp only [liProcess, hl, Option.some.injEq, reduceCtorEq, false_or]
      by_cases h1 : (link.attr "href").getD "" = ""
      · simp [h1]
      · by_cases h2 : containsSub "/tags".data ((link.attr "href").getD "").data = true
        · simp [h1, h2]
        · by_cases h3 : ':' ∈ ((link.attr "href").getD "").data
          · simp [h1, h2, h3]
          · simp [h1, h2, h3]
  · intro link hl h1 h2 h3
    simp [liProcess, hl, h1, h2, h3]
  · intro cands seen k b hb
    constructor
    · intro hseen
      simp [dedupCollect, hb, hseen]
    · intro hseen
      simp [dedupCollect, hb, hseen]

/-- C8, witness (for the amended statement). -/
theorem C8_witness :
    liProcess c1li
      = some ("test-model",
          mkListItem c1li "/library/test-model" "test-model") := by
  have h := (C8_amended c1li).2.1
  exact h (HNode.elem "a" [("href", "/library/test-model")]
      [HNode.text "test-model"]) rfl (by decide) (by decide) (by decide)

/-! ### General lemmas about the shared accumulation idiom and traversal -/

theorem dedupCollect_nil_of_none {α β : Type} {f : α → Option (String × β)} :
    ∀ (l : List α) (seen : List String), (∀ a ∈ l, f a = none) →
      dedupCollect f l seen = []
  | [], _, _ => rfl
  | a :: rest, seen, h => by
    have ha := h a (List.mem_cons_self a rest)
    simp only [dedupCollect, ha]
    exact dedupCollect_nil_of_none rest seen
      (fun x hx => h x (List.mem_cons_of_mem _ hx))

theorem dedupCollect_mem {α β : Type} {f : α → Option (String × β)} :
    ∀ {l : List α} {seen : List String} {b : β}, b ∈ dedupCollect f l seen →
      ∃ a ∈ l, ∃ k, f a = some (k, b)
  | [], _, _, h => absurd h (by simp [dedupCollect])
  | a :: rest, seen, b, h => by
    rw [dedupCollect] at h
    split at h
    · obtain ⟨x, hx, k, hk⟩ := dedupCollect_mem h
      exact ⟨x, List.mem_cons_of_mem _ hx, k, hk⟩
    · rename_i k0 b0 hfa
      split at h
      · obtain ⟨x, hx, k, hk⟩ := dedupCollect_mem h
        exact ⟨x, List.mem_cons_of_mem _ hx, k, hk⟩
      · cases List.mem_cons.mp h with
        | inl he => exact ⟨a, List.mem_cons_self a rest, k0, by rw [hfa, he]⟩
        | inr ht =>
          obtain ⟨x, hx, k, hk⟩ := dedupCollect_mem ht
          exact ⟨x, List.mem_cons_of_mem _ hx, k, hk⟩

theorem dedupCollect_nodup {α β : Type} (f : α → Option (String × β))
    (key : β → String) (hf : ∀ a k b, f a = some (k, b) → key b = k) :
    ∀ (l : List α) (seen : List String),
      ((dedupCollect f l seen).map key).Nodup
        ∧ ∀ b ∈ dedupCollect f l seen, key b ∉ seen
  | [], _ => by simp [dedupCollect]
  | a :: rest, seen => by
    rw [dedupCollect]
    split
    · exact dedupCollect_nodup f key hf rest seen
    · rename_i k0 b0 hfa
      split
      · exact dedupCollect_nodup f key hf rest seen
      · rename_i hs
        have hkey : key b0 = k0 := hf a k0 b0 hfa
        obtain ⟨ihn, ihs⟩ := dedupCollect_nodup f key hf rest (k0 :: seen)
        have hsn : k0 ∉ seen := fun hmem => hs (List.elem_eq_true_of_mem hmem)
        constructor
        · rw [List.map_cons, List.nodup_cons]
          refine ⟨?_, ihn⟩
          rw [hkey, List.mem_map]
          rintro ⟨b, hb, hkb⟩
          exact ihs b hb (by rw [hkb]; exact List.mem_cons_self _ _)
        · intro b hb
          cases List.mem_cons.mp hb with
          | inl he => rw [he, hkey]; exact hsn
          | inr ht => exact fun hmem => ihs b ht (List.mem_cons_of_mem _ hmem)

/-- Every descendant of a node of a forest's document-order traversal is
itself in that traversal. -/
theorem mem_preorder_trans :
    ∀ (l : List HNode) (n d : HNode), n ∈ preorderList l →
      d ∈ descendantsOf n → d ∈ preorderList l
  | [], n, d, h1, _ => absurd h1 (by simp [preorderList])
  | HNode.text s :: rest, n, d, h1, h2 => by
    rw [show preorderList (HNode.text s :: rest)
        = HNode.text s :: preorderList rest from rfl] at h1 ⊢
    cases List.mem_cons.mp h1 with
    | inl he => subst he; simp [descendantsOf] at h2
    | inr h => exact List.mem_cons_of_mem _ (mem_preorder_trans rest n d h h2)
  | HNode.elem t a ch :: rest, n, d, h1, h2 => by
    rw [show preorderList (HNode.elem t a ch :: rest)
        = HNode.elem t a ch :: (preorderList ch ++ preorderList rest)
      from by simp [preorderList, preorderNode]] at h1 ⊢
    cases List.mem_cons.mp h1 with
    | inl he =>
      subst he
      exact List.mem_cons_of_mem _ (List.mem_append_left _ h2)
    | inr h =>
      cases List.mem_append.mp h with
      | inl hch =>
        exact List.mem_cons_of_mem _
          (List.mem_append_left _ (mem_preorder_trans ch n d hch h2))
      | inr hrest =>
        exact List.mem_cons_of_mem _
          (List.mem_append_right _ (mem_preorder_trans rest n d hrest h2))
  termination_by l => sizeOf l
  decreasing_by
    · simp only [List.cons.sizeOf_spec]; omega
    · simp only [List.cons.sizeOf_spec, HNode.elem.sizeOf_spec]; omega
    · simp only [List.cons.sizeOf_spec]; omega

theorem liProcess_shape {li : HNode} {k : String} {b : ModelListItem}
    (h : liProcess li = some (k, b)) :
    b.name = k
      ∧ (∃ href, b = mkListItem li href k)
      ∧ b.parameters
          = (extractParameters (textChars li)).map (fun l => (⟨l⟩ : String)) := by
  cases hfl : findLibLink li with
  | none => rw [liProcess, hfl] at h; exact absurd h (by simp)
  | some link =>
    simp only [liProcess, hfl] at h
    by_cases h1 : (link.attr "href").getD "" = ""
    · rw [if_pos h1] at h; exact absurd h (by simp)
    · rw [if_neg h1] at h
      by_cases h2 : (containsSub "/tags".data ((link.attr "href").getD "").data
          || ((link.attr "href").getD "").data.contains ':') = true
      · rw [if_pos h2] at h; exact absurd h (by simp)
      · rw [if_neg h2] at h
        rw [Option.some.injEq, Prod.mk.injEq] at h
        obtain ⟨hk, hb⟩ := h
        subst hk
        subst hb
        exact ⟨rfl, ⟨_, rfl⟩, rfl⟩

theorem tagProcess_shape {loc : Loc} {k : String} {t : ModelTag}
    (h : tagProcess loc = some (k, t)) :
    ∃ tc, tagFromHref ((loc.node.attr "href").getD "").data = some tc
      ∧ k = ⟨tc⟩ ∧ t.name = k
      ∧ t = mkTagRecord ⟨tc⟩ (textChars loc.node) (selectTagText loc) := by
  cases htc : tagFromHref ((loc.node.attr "href").getD "").data with
  | none => rw [tagProcess, htc] at h; exact absurd h (by simp)
  | some tc =>
    simp only [tagProcess, htc] at h
    rw [Option.some.injEq, Prod.mk.injEq] at h
    obtain ⟨hk, ht⟩ := h
    subst hk
    subst ht
    exact ⟨tc, rfl, rfl, rfl, rfl⟩

theorem variantProcess_shape {loc : Loc} {k : String} {v : VariantSummary}
    (h : variantProcess loc = some (k, v)) : v.name = k := by
  rw [variantProcess] at h
  split at h
  · exact absurd h (by simp)
  · rw [Option.some.injEq, Prod.mk.injEq] at h
    obtain ⟨hk, hv⟩ := h
    subst hk
    subst hv
    rfl

/-! ### Claim C3 -/

/-- A container that lives in a document with no catalog-pattern link is
always rejected by the listing extractor's callback. -/
theorem liProcess_none_of_noCatalog {doc : List HNode} {li : HNode}
    (hli : li ∈ preorderList doc)
    (hall : (preorderList doc).all (fun n => !catalogLink n) = true) :
    liProcess li = none := by
  rw [liProcess]
  cases hl : findLibLink li with
  | none => rfl
  | some link =>
    have hmem : link ∈ descendantsOf li := List.mem_of_find?_eq_some hl
    have hpred := List.find?_some hl
    have hlink : link ∈ preorderList doc := mem_preorder_trans _ _ _ hli hmem
    have hcat : catalogLink link = false := by
      have hx := List.all_eq_true.mp hall link hlink
      simpa using hx
    simp only [Bool.and_eq_true] at hpred
    obtain ⟨⟨helem, htag⟩, hhref⟩ := hpred
    cases hattr : link.attr "href" with
    | none => rw [hattr] at hhref; simp at hhref
    | some hr =>
      rw [hattr] at hhref
      simp only [Option.map_some', Option.getD_some] at hhref
      rw [catalogLink, hattr] at hcat
      simp only [helem, htag, Option.map_some', Option.getD_some, hhref,
        Bool.true_and, Bool.and_eq_false_eq_eq_false_or_eq_false,
        Bool.not_eq_false'] at hcat
      simp only [hattr, Option.getD_some]
      by_cases h0 : hr = ""
      · simp [h0]
      · rw [if_neg h0]
        have hcond : (containsSub "/tags".data hr.data
            || hr.data.contains ':') = true := by
          cases hcat with
          | inl hh => rw [hh, Bool.true_or]
          | inr hh => rw [hh, Bool.or_true]
        rw [if_pos hcond]

/-- C3, code-bug exhibit: on the successfully fetched page `c3doc`
(status 200) the listing callback accepts the container's first library
link, derives the slug `"("`, finds no `<p>` element — so the source
constructs ``new RegExp(`(\s+(.+?)(?:\n|$)`, 's')`` at line 137 — and
that pattern source is not well-parenthesised, hence not a valid regex: the
constructor throws and the catch at line 190 wraps and rethrows, although
the fetch succeeded.  The claim's remaining parts hold of the program: a
transport failure is wrapped with the operation name, and a page with zero
catalog-pattern links yields an empty array (last two conjuncts; see also
`liProcess_none_of_noCatalog`). -/
theorem C3_code_bug :
    statusOk 200 = true
      ∧ findLibLink c3li
          = some (.elem "a" [("href", "/library/(")] [.text "("])
      ∧ containsSub "/tags".data "/library/(".data = false
      ∧ ':' ∉ "/library/(".data
      ∧ (⟨removeFirst "/library/".data "/library/(".data⟩ : String) = "("
      ∧ (descendantsOf c3li).find? (fun n => n.isElem && n.tagOf = "p") = none
      ∧ jsRegexWellParen (descPattern "(".data) = false
      ∧ getModelListing (.networkError "socket hang up")
          = .error ("Failed to fetch model listing: " ++ "socket hang up")
      ∧ getModelListing (.response 200 []) = .ok [] := by
  exact ⟨by decide, rfl, by decide, by decide, by decide, rfl, by decide,
    rfl, rfl⟩

/-! ### Claim C5 -/

/-- C5: in every result list of the three operations no two records share a
name: each operation runs the shared de-duplication fold over a fresh empty
per-call set (the last two conjuncts), and the fold keeps the first
occurrence of each key. -/
theorem C5_unique_names :
    (∀ (f : FetchResult) (l : List ModelListItem),
        getModelListing f = .ok l → (l.map ModelListItem.name).Nodup)
    ∧ (∀ (modelName : String) (f : FetchResult) (l : List ModelTag),
        getModelTags modelName f = .ok l → (l.map ModelTag.name).Nodup)
    ∧ (∀ (modelName : String) (tag : Option String) (f : FetchResult)
        (conv : String → Option String) (d : ModelDetails) (w : Bool),
        getModelDetails modelName tag f conv = .ok (d, w) →
        (d.models.map VariantSummary.name).Nodup)
    ∧ (∀ doc : List HNode,
        listingFromDom doc
          = dedupCollect liProcess
              ((preorderList doc).filter (fun n => n.isElem && n.tagOf = "li")) [])
    ∧ (∀ (modelName : String) (doc : List HNode),
        tagsFromDom modelName doc
          = dedupCollect tagProcess (tagLinkLocs modelName doc) []) := by
  refine ⟨?_, ?_, ?_, fun _ => rfl, fun _ _ => rfl⟩
  · intro f l h
    cases f with
    | networkError m => simp [getModelListing] at h
    | response st doc =>
      simp only [getModelListing] at h
      by_cases hst : statusOk st = true
      · rw [if_pos hst, Except.ok.injEq] at h
        subst h
        exact (dedupCollect_nodup liProcess ModelListItem.name
          (fun a k b hb => (liProcess_shape hb).1) _ []).1
      · rw [if_neg hst] at h; exact absurd h (by simp)
  · intro modelName f l h
    cases f with
    | networkError m => simp [getModelTags] at h
    | response st doc =>
      simp only [getModelTags] at h
      by_cases hst : statusOk st = true
      · rw [if_pos hst, Except.ok.injEq] at h
        subst h
        refine (dedupCollect_nodup tagProcess ModelTag.name ?_ _ []).1
        intro a k b hb
        obtain ⟨tc, _, _, h3, _⟩ := tagProcess_shape hb
        exact h3
      · rw [if_neg hst] at h; exact absurd h (by simp)
  · intro modelName tag f conv d w h
    cases f with
    | networkError m => simp [getModelDetails] at h
    | response st doc =>
      simp only [getModelDetails] at h
      by_cases hst : statusOk st = true
      · rw [if_pos hst, Except.ok.injEq] at h
        have hd : d = (detailsFromDom modelName doc conv).1 := by rw [h]
        rw [hd]
        exact (dedupCollect_nodup variantProcess VariantSummary.name
          (fun a k v hv => variantProcess_shape hv) (variantLinkLocs doc) []).1
      · rw [if_neg hst] at h; exact absurd h (by simp)

/-- C5, witness. -/
theorem C5_witness : (([c1record].map ModelListItem.name).Nodup) :=
  C5_unique_names.1 (.response 200 c1doc) [c1record] rfl

/-! ### Claim C10 -/

/-- C10: `getModelDetails` copies its slug argument verbatim into the
returned record's `name` — whatever the fetched page holds — and the `tag`
argument influences only the fetched URL, never the result. -/
theorem C10_details_name (modelName : String) (tag : Option String)
    (f : FetchResult) (conv : String → Option String) :
    (∀ (d : ModelDetails) (w : Bool),
        getModelDetails modelName tag f conv = .ok (d, w) → d.name = modelName)
    ∧ detailsUrl modelName none = baseUrl ++ "/library/" ++ modelName
    ∧ (∀ t : String, detailsUrl modelName (some t)
        = baseUrl ++ "/library/" ++ modelName ++ ":" ++ t)
    ∧ (∀ tag2 : Option String,
        getModelDetails modelName tag f conv
          = getModelDetails modelName tag2 f conv) := by
  refine ⟨?_, rfl, fun t => rfl, fun tag2 => rfl⟩
  intro d w h
  cases f with
  | networkError m => simp [getModelDetails] at h
  | response st doc =>
    simp only [getModelDetails] at h
    by_cases hst : statusOk st = true
    · rw [if_pos hst, Except.ok.injEq] at h
      have hd : d = (detailsFromDom modelName doc conv).1 := by rw [h]
      rw [hd]
      rfl
    · rw [if_neg hst] at h; exact absurd h (by simp)

/-- C10, witness. -/
theorem C10_witness :
    (detailsFromDom "m" [] (fun _ => none)).1.name = "m"
      ∧ detailsUrl "m" (some "7b") = "https://ollama.com/library/m:7b" := by
  have h := C10_details_name "m" (some "7b") (.response 200 []) (fun _ => none)
  exact ⟨h.1 _ _ rfl, (h.2.2.1 "7b").trans (by decide)⟩

/-! ### Claim C6 -/

/-- A present Markdown field forces a present HTML field. -/
theorem extractReadme_md_html (doc : List HNode) (conv : String → Option String)
    (h : (extractReadme doc conv).2.1.isSome = true) :
    (extractReadme doc conv).1.isSome = true := by
  rw [extractReadme] at h ⊢
  cases hfd : findDisplay doc with
  | none => rw [hfd] at h; simp at h
  | some e =>
    rw [hfd] at h
    dsimp only at h ⊢
    by_cases hre : (trimJs (innerHtml e)).isEmpty = true
    · rw [if_pos hre] at h; simp at h
    · rw [if_neg hre] at h ⊢
      clear h
      cases hc : conv ⟨trimJs (innerHtml e)⟩ with
      | none => rfl
      | some md => rfl

/-- A throwing conversion on a captured non-empty readme yields the warning,
no Markdown, and the preserved raw HTML. -/
theorem extractReadme_conv_fails (doc : List HNode)
    (conv : String → Option String) (e : HNode)
    (hfd : findDisplay doc = some e)
    (hne : trimJs (innerHtml e) ≠ [])
    (hc : conv ⟨trimJs (innerHtml e)⟩ = none) :
    extractReadme doc conv = (some ⟨trimJs (innerHtml e)⟩, none, true) := by
  rw [extractReadme, hfd]
  dsimp only
  rw [if_neg (fun hh => hne (by simpa using hh))]
  rw [hc]

/-- C6: a returned details record never has `readmeMarkdown` without
`readmeHtml`; when the Markdown conversion throws on the captured readme,
the warning flag is set, `readmeMarkdown` stays undefined, `readmeHtml`
stays populated, and the operation still returns a result. -/
theorem C6_readme (modelName : String) (tag : Option String) (f : FetchResult)
    (conv : String → Option String) (d : ModelDetails) (w : Bool)
    (h : getModelDetails modelName tag f conv = .ok (d, w)) :
    (d.readmeMarkdown.isSome = true → d.readmeHtml.isSome = true)
    ∧ (∀ (st : Nat) (doc : List HNode), f = .response st doc →
        ∀ e, findDisplay doc = some e →
          trimJs (innerHtml e) ≠ [] →
          conv ⟨trimJs (innerHtml e)⟩ = none →
          w = true ∧ d.readmeMarkdown = none
            ∧ d.readmeHtml = some ⟨trimJs (innerHtml e)⟩) := by
  cases f with
  | networkError m => simp [getModelDetails] at h
  | response st doc =>
    simp only [getModelDetails] at h
    by_cases hst : statusOk st = true
    · rw [if_pos hst, Except.ok.injEq] at h
      have hd : d = (detailsFromDom modelName doc conv).1 := by rw [h]
      have hw : w = (detailsFromDom modelName doc conv).2 := by rw [h]
      have hdh : d.readmeHtml = (extractReadme doc conv).1 := by rw [hd]; rfl
      have hdm : d.readmeMarkdown = (extractReadme doc conv).2.1 := by
        rw [hd]; rfl
      have hww : w = (extractReadme doc conv).2.2 := by rw [hw]; rfl
      constructor
      · intro hms
        rw [hdm] at hms
        rw [hdh]
        exact extractReadme_md_html doc conv hms
      · intro st2 doc2 hf e hfd hne hc
        have hdoc : doc2 = doc := by
          injection hf with h1 h2
          exact h2.symm
        rw [hdoc] at hfd
        have hre := extractReadme_conv_fails doc conv e hfd hne hc
        refine ⟨?_, ?_, ?_⟩
        · rw [hww, hre]
        · rw [hdm, hre]
        · rw [hdh, hre]
    · rw [if_neg hst] at h; exact absurd h (by simp)

/-- C6, witness. -/
theorem C6_witness :
    (detailsFromDom "mod" detailsDoc (fun _ => none)).2 = true
      ∧ (detailsFromDom "mod" detailsDoc (fun _ => none)).1.readmeMarkdown = none
      ∧ (detailsFromDom "mod" detailsDoc (fun _ => none)).1.readmeHtml
          = some ⟨trimJs (innerHtml
              (.elem "div" [("id", "display")] [.elem "h1" [] [.text "Readme"]]))⟩ := by
  have h := C6_readme "mod" none (.response 200 detailsDoc) (fun _ => none)
      (detailsFromDom "mod" detailsDoc (fun _ => none)).1
      (detailsFromDom "mod" detailsDoc (fun _ => none)).2 rfl
  have h2 := h.2 200 detailsDoc rfl
      (.elem "div" [("id", "display")] [.elem "h1" [] [.text "Readme"]])
      rfl (by decide) rfl
  exact ⟨h2.1, h2.2.1, h2.2.2⟩

/-! ### Claim C4 -/

theorem digestAt_shape {prev : Option Char} {s d : List Char}
    (h : digestAt prev s = some d) :
    d.length = 12 ∧ ∀ c ∈ d, isLowerHexCh c = true := by
  rw [digestAt] at h
  dsimp only at h
  split at h
  · exact absurd h (by simp)
  · split at h
    · rename_i hcond
      rw [Option.some.injEq] at h
      subst h
      simp only [Bool.and_eq_true, decide_eq_true_eq, List.all_eq_true] at hcond
      exact ⟨hcond.1.1, hcond.1.2⟩
    · exact absurd h (by simp)

theorem digestOf_shape {text d : List Char} (h : digestOf text = some d) :
    d.length = 12 ∧ ∀ c ∈ d, isLowerHexCh c = true := by
  obtain ⟨p, s, hf⟩ := scanFirst_some h
  exact digestAt_shape hf

/-- C4: in every tag record the digest is either empty or exactly 12
lowercase-hexadecimal characters — never a partial, longer or uppercase
match, since `/\b([a-f0-9]{12})\b/` demands word boundaries around exactly
12 characters of the lowercase class. -/
theorem C4_digest (modelName : String) (f : FetchResult) (l : List ModelTag)
    (h : getModelTags modelName f = .ok l) :
    ∀ t ∈ l, t.digest = ""
      ∨ (t.digest.length = 12
          ∧ ∀ c ∈ t.digest.data, isLowerHexCh c = true) := by
  intro t ht
  cases f with
  | networkError m => simp [getModelTags] at h
  | response st doc =>
    simp only [getModelTags] at h
    by_cases hst : statusOk st = true
    · rw [if_pos hst, Except.ok.injEq] at h
      subst h
      obtain ⟨loc, hloc, k, hk⟩ := dedupCollect_mem ht
      obtain ⟨tc, htc, hkv, hname, hrec⟩ := tagProcess_shape hk
      have hdg : t.digest = ⟨(digestOf (selectTagText loc)).getD []⟩ := by
        rw [hrec]; rfl
      cases hdo : digestOf (selectTagText loc) with
      | none => left; rw [hdg, hdo]; rfl
      | some dg =>
        right
        obtain ⟨hlen, hhex⟩ := digestOf_shape hdo
        rw [hdg, hdo]
        exact ⟨hlen, hhex⟩
    · rw [if_neg hst] at h; exact absurd h (by simp)

/-- C4, witness. -/
theorem C4_witness :
    c4rec.digest = ""
      ∨ (c4rec.digest.length = 12
          ∧ ∀ c ∈ c4rec.digest.data, isLowerHexCh c = true) :=
  C4_digest "test-model" (.response 200 tagsDoc) _ rfl _ (by decide)

/-! ### Claim C9 -/

theorem mkTagRecord_aliases (tagName : String) (linkText text : List Char) :
    ((mkTagRecord tagName linkText text).aliases = some ["latest"] ↔
      (tagName ≠ "latest"
        ∧ containsSub "latest".data (foldCL linkText) = true))
    ∧ ((mkTagRecord tagName linkText text).aliases = none
        ∨ (mkTagRecord tagName linkText text).aliases = some ["latest"]) := by
  have ha : (mkTagRecord tagName linkText text).aliases
      = if tagName ≠ "latest" && containsSub "latest".data (foldCL linkText)
        then some ["latest"] else none := rfl
  by_cases hn : tagName = "latest"
  · subst hn; simp [ha]
  · by_cases hc : containsSub "latest".data (foldCL linkText) = true
    · simp [ha, hn, hc]
    · simp [ha, hn, hc]

/-- C9: every returned tag record stems from one tag link, and its `aliases`
field is `["latest"]` exactly when the tag's own name is not `latest` and
the link's own label text (not the cascade's metadata text) contains
`latest` case-insensitively; otherwise the field is absent. -/
theorem C9_aliases (modelName : String) (f : FetchResult) (l : List ModelTag)
    (h : getModelTags modelName f = .ok l) :
    ∀ t ∈ l, ∃ loc : Loc,
      t = mkTagRecord t.name (textChars loc.node) (selectTagText loc)
        ∧ (t.aliases = some ["latest"] ↔
            (t.name ≠ "latest"
              ∧ containsSub "latest".data (foldCL (textChars loc.node)) = true))
        ∧ (t.aliases = none ∨ t.aliases = some ["latest"]) := by
  intro t ht
  cases f with
  | networkError m => simp [getModelTags] at h
  | response st doc =>
    simp only [getModelTags] at h
    by_cases hst : statusOk st = true
    · rw [if_pos hst, Except.ok.injEq] at h
      subst h
      obtain ⟨loc, hloc, k, hk⟩ := dedupCollect_mem ht
      obtain ⟨tc, htc, hkv, hname, hrec⟩ := tagProcess_shape hk
      refine ⟨loc, ?_, ?_, ?_⟩
      · rw [hname, hkv]
        exact hrec
      · have hal : t.aliases
            = (mkTagRecord ⟨tc⟩ (textChars loc.node) (selectTagText loc)).aliases := by
          rw [hrec]
        rw [hal, hname, hkv]
        exact (mkTagRecord_aliases ⟨tc⟩ (textChars loc.node) (selectTagText loc)).1
      · have hal : t.aliases
            = (mkTagRecord ⟨tc⟩ (textChars loc.node) (selectTagText loc)).aliases := by
          rw [hrec]
        rw [hal]
        exact (mkTagRecord_aliases ⟨tc⟩ (textChars loc.node) (selectTagText loc)).2
    · rw [if_neg hst] at h; exact absurd h (by simp)

/-- C9, witness. -/
theorem C9_witness :
    ∃ loc : Loc,
      c9rec = mkTagRecord c9rec.name (textChars loc.node) (selectTagText loc)
        ∧ (c9rec.aliases = some ["latest"] ↔
            (c9rec.name ≠ "latest"
              ∧ containsSub "latest".data (foldCL (textChars loc.node)) = true))
        ∧ (c9rec.aliases = none ∨ c9rec.aliases = some ["latest"]) :=
  C9_aliases "m" (.response 200 aliasDoc) _ rfl c9rec (by decide)

/-! ### Claim C2 -/

theorem hasUnit_ne_nil {t : List Char} (h : hasUnit t = true) : t ≠ [] := by
  intro h0
  subst h0
  revert h
  decide

theorem stage1_eq (loc : Loc) :
    stage1 loc = (stage1Spec loc).getD []
      ∧ ∀ t, stage1Spec loc = some t → t ≠ [] := by
  rw [stage1, stage1Spec]
  cases hs : nextElemSib loc.after with
  | none => exact ⟨rfl, by simp⟩
  | some sib =>
    dsimp only
    by_cases hu : hasUnit (textChars sib) = true
    · rw [if_pos hu, if_pos hu]
      refine ⟨rfl, fun t ht => ?_⟩
      rw [Option.some.injEq] at ht
      subst ht
      exact hasUnit_ne_nil hu
    · rw [if_neg hu, if_neg hu]
      exact ⟨rfl, by simp⟩

theorem stage2Go_eq :
    ∀ (d : Nat) (l : List HNode),
      stage2Go d l
          = ((l.take d).findSome? (fun a =>
              if hasUnit (textChars a) && (textChars a).length < 200
              then some (textChars a) else none)).getD []
        ∧ ∀ t, ((l.take d).findSome? (fun a =>
              if hasUnit (textChars a) && (textChars a).length < 200
              then some (textChars a) else none)) = some t → t ≠ []
  | 0, l => by simp [stage2Go]
  | d + 1, [] => by simp [stage2Go]
  | d + 1, a :: rest => by
    rw [stage2Go,
      show (a :: rest).take (d + 1) = a :: rest.take d from rfl,
      List.findSome?_cons]
    by_cases hc : (hasUnit (textChars a)
        && decide ((textChars a).length < 200)) = true
    · rw [if_pos hc, if_pos hc]
      refine ⟨rfl, fun t ht => ?_⟩
      rw [Option.some.injEq] at ht
      subst ht
      exact hasUnit_ne_nil (Bool.and_eq_true .. ▸ hc).1
    · rw [if_neg hc, if_neg hc]
      exact stage2Go_eq d rest

/-- A guarded `findSome?` is a `find?` followed by the payload map. -/
theorem find?_guard_eq {α β : Type} (p : α → Bool) (g : α → β) :
    ∀ l : List α,
      l.findSome? (fun x => if p x then some (g x) else none)
        = (l.find? p).map g
  | [] => rfl
  | x :: xs => by
    rw [List.findSome?_cons]
    cases hp : p x with
    | true =>
      have hfind : (x :: xs).find? p = some x := by
        simp [List.find?_cons, hp]
      rw [hfind]
      rfl
    | false =>
      have hfind : (x :: xs).find? p = xs.find? p := by
        simp [List.find?_cons, hp]
      rw [hfind]
      exact find?_guard_eq p g xs

theorem stage3_eq (loc : Loc) :
    stage3 loc = (stage3Spec loc).getD []
      ∧ ∀ t, stage3Spec loc = some t → t ≠ [] := by
  have hg : stage3Spec loc
      = (((loc.after.filter HNode.isElem).take 3).find? (fun sib =>
          hasUnit (textChars sib) && (textChars sib).length < 100)).map
          textChars := by
    rw [stage3Spec]
    exact find?_guard_eq _ textChars _
  rw [stage3, hg]
  cases hf : ((loc.after.filter HNode.isElem).take 3).find? (fun sib =>
      hasUnit (textChars sib) && (textChars sib).length < 100) with
  | none => exact ⟨rfl, by simp⟩
  | some sib =>
    have hp := List.find?_some hf
    refine ⟨rfl, fun t ht => ?_⟩
    rw [Option.map_some', Option.some.injEq] at ht
    subst ht
    exact hasUnit_ne_nil (Bool.and_eq_true .. ▸ hp).1

theorem selectTagText_eq (loc : Loc) :
    selectTagText loc = (cascadeSpec loc).getD [] := by
  obtain ⟨h1e, h1n⟩ := stage1_eq loc
  obtain ⟨h3e, h3n⟩ := stage3_eq loc
  obtain ⟨h2e, h2n⟩ := stage2Go_eq 3 (loc.ancestors.map Prod.fst)
  have h2e' : stage2 loc = (stage2Spec loc).getD [] := h2e
  have h2n' : ∀ t, stage2Spec loc = some t → t ≠ [] := h2n
  rw [selectTagText, cascadeSpec]
  cases hc1 : stage1Spec loc with
  | some t1 =>
    have ht1 : stage1 loc = t1 := by rw [h1e, hc1]; rfl
    have hne := h1n t1 hc1
    rw [ht1, if_pos (by
      cases t1 with
      | nil => exact absurd rfl hne
      | cons c cs => rfl)]
    rfl
  | none =>
    have ht1 : stage1 loc = [] := by rw [h1e, hc1]; rfl
    rw [ht1]
    rw [if_neg (by decide)]
    cases hc2 : stage2Spec loc with
    | some t2 =>
      have ht2 : stage2 loc = t2 := by rw [h2e', hc2]; rfl
      have hne := h2n' t2 hc2
      rw [ht2, if_pos (by
        cases t2 with
        | nil => exact absurd rfl hne
        | cons c cs => rfl)]
      rfl
    | none =>
      have ht2 : stage2 loc = [] := by rw [h2e', hc2]; rfl
      rw [ht2]
      rw [if_neg (by decide)]
      rw [h3e]
      rfl

/-- C2: the candidate metadata text of every tag link is chosen by the
three-stage cascade, stopping at the first success; when every stage fails
the candidate is empty and the derived `digest`, `size` and `modifiedAt`
are empty strings while `contextWindow` and `inputType` are undefined. -/
theorem C2_cascade (loc : Loc) :
    selectTagText loc = (cascadeSpec loc).getD []
      ∧ (cascadeSpec loc = none →
          ∀ (tagName : String) (linkText : List Char),
            (mkTagRecord tagName linkText (selectTagText loc)).digest = ""
              ∧ (mkTagRecord tagName linkText (selectTagText loc)).size = ""
              ∧ (mkTagRecord tagName linkText (selectTagText loc)).modifiedAt = ""
              ∧ (mkTagRecord tagName linkText (selectTagText loc)).contextWindow = none
              ∧ (mkTagRecord tagName linkText (selectTagText loc)).inputType = none) := by
  refine ⟨selectTagText_eq loc, ?_⟩
  intro hc tagName linkText
  have hsel : selectTagText loc = [] := by
    rw [selectTagText_eq loc, hc]
    rfl
  rw [hsel]
  exact ⟨rfl, rfl, rfl, rfl, rfl⟩

/-- C2, witness. -/
theorem C2_witness :
    selectTagText ⟨HNode.text "x", [], []⟩ = []
      ∧ (mkTagRecord "t" [] (selectTagText ⟨HNode.text "x", [], []⟩)).digest = ""
      ∧ (mkTagRecord "t" [] (selectTagText ⟨HNode.text "x", [], []⟩)).size = "" := by
  have h := C2_cascade ⟨HNode.text "x", [], []⟩
  have h2 := h.2 rfl "t" []
  refine ⟨?_, h2.1, h2.2.1⟩
  rw [h.1]
  rfl

/-! ### Claim C7 -/

theorem toNat_ofNat_small : ∀ n < 123, (Char.ofNat n).toNat = n := by decide

theorem foldCh_idem (c : Char) : foldCh (foldCh c) = foldCh c := by
  by_cases h : (65 ≤ c.toNat && c.toNat ≤ 90) = true
  · have hin : foldCh c = Char.ofNat (c.toNat + 32) := by
      rw [foldCh, if_pos h]
    have h' : 65 ≤ c.toNat ∧ c.toNat ≤ 90 := by
      simpa [Bool.and_eq_true, decide_eq_true_eq] using h
    have ht : (Char.ofNat (c.toNat + 32)).toNat = c.toNat + 32 :=
      toNat_ofNat_small _ (by omega)
    have hno : ¬((65 ≤ (Char.ofNat (c.toNat + 32)).toNat
        && (Char.ofNat (c.toNat + 32)).toNat ≤ 90) = true) := by
      simp only [ht, Bool.and_eq_true, decide_eq_true_eq, not_and]
      intro _
      omega
    rw [hin, foldCh, if_neg hno]
  · have hin : foldCh c = c := by rw [foldCh, if_neg h]
    rw [hin, foldCh, if_neg h]

theorem foldCL_idem (l : List Char) : foldCL (foldCL l) = foldCL l := by
  show (l.map foldCh).map foldCh = l.map foldCh
  rw [List.map_map]
  exact List.map_congr_left (fun c _ => foldCh_idem c)

theorem foldCL_length (l : List Char) : (foldCL l).length = l.length :=
  List.length_map l foldCh

theorem pullsTagsGuardAt_fold (pat : List Char) :
    pullsTagsGuardAt (foldCL pat) = pullsTagsGuardAt pat := by
  funext prev st
  rw [pullsTagsGuardAt, pullsTagsGuardAt, ciStartsWith, ciStartsWith,
    foldCL_idem, foldCL_length]

theorem followedByPullsTags_fold (text pat : List Char) :
    followedByPullsTags text (foldCL pat) = followedByPullsTags text pat := by
  rw [followedByPullsTags, followedByPullsTags, pullsTagsGuardAt_fold]

theorem extractParamsGo_spec (text : List Char) :
    ∀ (ts acc : List (List Char)),
      ∃ ext, extractParamsGo text ts acc = acc ++ ext
        ∧ ext.Sublist (ts.map foldCL)
        ∧ (∀ p ∈ ext,
            foldCL p = p ∧ followedByPullsTags text p = false ∧ p ∉ acc)
        ∧ (acc.Nodup → (acc ++ ext).Nodup)
        ∧ (∀ tok ∈ ts, followedByPullsTags text tok = false →
            foldCL tok ∈ acc ++ ext)
  | [], acc => ⟨[], by simp [extractParamsGo]⟩
  | p :: ps, acc => by
    rw [extractParamsGo]
    by_cases hc : (!followedByPullsTags text p
        && !acc.contains (foldCL p)) = true
    · rw [if_pos hc]
      have hc' := hc
      simp only [Bool.and_eq_true, Bool.not_eq_true'] at hc'
      obtain ⟨hcf, hcm⟩ := hc'
      have hnotmem : foldCL p ∉ acc := by
        intro hmem
        have hco : acc.contains (foldCL p) = true :=
          List.elem_eq_true_of_mem hmem
        rw [hco] at hcm
        exact absurd hcm (by simp)
      obtain ⟨ext, he, hsub, hprops, hnd, hcompl⟩ :=
        extractParamsGo_spec text ps (acc ++ [foldCL p])
      refine ⟨foldCL p :: ext, ?_, ?_, ?_, ?_, ?_⟩
      · rw [he, List.append_assoc]
        rfl
      · exact List.Sublist.cons₂ _ hsub
      · intro q hq
        cases List.mem_cons.mp hq with
        | inl hq' =>
          subst hq'
          exact ⟨foldCL_idem p,
            (followedByPullsTags_fold text p).trans hcf, hnotmem⟩
        | inr hq' =>
          obtain ⟨q1, q2, q3⟩ := hprops q hq'
          exact ⟨q1, q2, fun hmem => q3 (List.mem_append_left _ hmem)⟩
      · intro hacc
        have hacc2 : (acc ++ [foldCL p]).Nodup := by
          simp [List.nodup_append, hacc, hnotmem]
        have h2 := hnd hacc2
        rwa [List.append_assoc] at h2
      · intro tok htok hf
        cases List.mem_cons.mp htok with
        | inl ht' =>
          subst ht'
          exact List.mem_append_right _ (List.mem_cons_self _ _)
        | inr ht' =>
          have := hcompl tok ht' hf
          rwa [List.append_assoc] at this
    · rw [if_neg hc]
      obtain ⟨ext, he, hsub, hprops, hnd, hcompl⟩ :=
        extractParamsGo_spec text ps acc
      refine ⟨ext, he, hsub.cons _, hprops, hnd, ?_⟩
      intro tok htok hf
      cases List.mem_cons.mp htok with
      | inl ht' =>
        subst ht'
        have hmem : foldCL tok ∈ acc := by
          by_contra hnm
          apply hc
          rw [hf]
          simp only [Bool.not_false, Bool.true_and, Bool.not_eq_true']
          cases hcon : acc.contains (foldCL tok) with
          | false => rfl
          | true => exact absurd (List.mem_of_elem_eq_true hcon) hnm
        exact List.mem_append_left _ hmem
      | inr ht' => exact hcompl tok ht' hf

/-- C7: the parameter list of every listing record is a de-duplicated,
case-normalised list of size tokens in first-seen order, and a token whose
occurrence the source text immediately follows with `Pulls` or `Tags`
(case-insensitively) is never included. -/
theorem C7_parameters :
    (∀ text : List Char,
        (extractParameters text).Nodup
        ∧ (extractParameters text).Sublist ((sizeTokens text).map foldCL)
        ∧ (∀ p ∈ extractParameters text,
            foldCL p = p ∧ followedByPullsTags text p = false)
        ∧ (∀ tok ∈ sizeTokens text, followedByPullsTags text tok = false →
            foldCL tok ∈ extractParameters text))
    ∧ (∀ (f : FetchResult) (l : List ModelListItem),
        getModelListing f = .ok l → ∀ r ∈ l,
          ∃ t : List Char,
            r.parameters = (extractParameters t).map (fun c => (⟨c⟩ : String))
              ∧ r.parameters.Nodup
              ∧ ∀ p ∈ r.parameters, jsToLower p = p) := by
  constructor
  · intro text
    obtain ⟨ext, he, hsub, hprops, hnd, hcompl⟩ :=
      extractParamsGo_spec text (sizeTokens text) []
    have hex : extractParameters text = ext := by
      rw [extractParameters, he, List.nil_append]
    refine ⟨?_, ?_, ?_, ?_⟩
    · rw [hex]
      simpa using hnd List.nodup_nil
    · rw [hex]; exact hsub
    · intro q hq
      rw [hex] at hq
      obtain ⟨q1, q2, _⟩ := hprops q hq
      exact ⟨q1, q2⟩
    · intro tok htok hf
      rw [hex]
      simpa using hcompl tok htok hf
  · intro f l h r hr
    cases f with
    | networkError m => simp [getModelListing] at h
    | response st doc =>
      simp only [getModelListing] at h
      by_cases hst : statusOk st = true
      · rw [if_pos hst, Except.ok.injEq] at h
        subst h
        obtain ⟨li, hli, k, hk⟩ := dedupCollect_mem hr
        obtain ⟨hname, hmk, hpar⟩ := liProcess_shape hk
        refine ⟨textChars li, hpar, ?_, ?_⟩
        · rw [hpar]
          refine List.Nodup.map ?_ ?_
          · intro a b hab
            exact congrArg String.data hab
          · obtain ⟨ext, he, hsub, hprops, hnd, hcompl⟩ :=
              extractParamsGo_spec (textChars li) (sizeTokens (textChars li)) []
            have hex : extractParameters (textChars li) = ext := by
              rw [extractParameters, he, List.nil_append]
            rw [hex]
            simpa using hnd List.nodup_nil
        · intro q hq
          rw [hpar] at hq
          obtain ⟨c, hc, hcq⟩ := List.mem_map.mp hq
          obtain ⟨ext, he, hsub, hprops, hnd, hcompl⟩ :=
            extractParamsGo_spec (textChars li) (sizeTokens (textChars li)) []
          have hex : extractParameters (textChars li) = ext := by
            rw [extractParameters, he, List.nil_append]
          rw [hex] at hc
          obtain ⟨c1, _, _⟩ := hprops c hc
          rw [← hcq]
          rw [jsToLower]
          exact congrArg String.mk (by rw [show (String.mk c).data = c from rfl, c1])
      · rw [if_neg hst] at h; exact absurd h (by simp)

/-- C7, witness. -/
theorem C7_witness :
    (foldCL "7b".data = "7b".data
      ∧ followedByPullsTags c1text "7b".data = false)
      ∧ ∃ t : List Char,
          c1record.parameters
              = (extractParameters t).map (fun c => (⟨c⟩ : String))
            ∧ c1record.parameters.Nodup
            ∧ ∀ p ∈ c1record.parameters, jsToLower p = p := by
  refine ⟨(C7_parameters.1 c1text).2.2.1 "7b".data (by decide), ?_⟩
  exact C7_parameters.2 (.response 200 c1doc) [c1record] rfl c1record
    (List.mem_singleton.mpr rfl)

end Ollama
